import Mathlib

/-!
Verification of `scripts/normalize_cloud_activity.py` (cloud activity
standardization).  Python strings are modelled as `List Char`; every Python
string primitive the script uses is embedded as an executable Lean function
over character lists.  All inputs of interest are ASCII, where Lean's
`Char.toLower` / `Char.toUpper` agree with Python's `str.lower` /
`str.upper` / `str.capitalize` case mapping.
-/

/-- Whitespace class used by Python's `str.strip` and the regex `\s`
(ASCII range): space, tab, newline, carriage return, vertical tab, form feed. -/
def isSpace (c : Char) : Bool :=
  c = ' ' || c = '\t' || c = '\n' || c = '\r' || c = '\x0b' || c = '\x0c'

/-- Python `str.lower` (ASCII). -/
def pyLower (l : List Char) : List Char := l.map Char.toLower

/-- Python `str.upper` (ASCII). -/
def pyUpper (l : List Char) : List Char := l.map Char.toUpper

/-- Python `str.strip()`: drop leading and trailing whitespace. -/
def pyStrip (l : List Char) : List Char :=
  ((l.dropWhile isSpace).reverse.dropWhile isSpace).reverse

/-- Python `str.capitalize()`: first character uppercased, the rest lowercased. -/
def pyCapitalize (l : List Char) : List Char :=
  match l with
  | [] => []
  | c :: rest => Char.toUpper c :: pyLower rest

/-- Effect of `re.sub(r"\s+", " ", s)`: every maximal whitespace run becomes
a single space. -/
def collapseWs : List Char → List Char
  | [] => []
  | [c] => if isSpace c then [' '] else [c]
  | c :: d :: rest =>
    if isSpace c && isSpace d then collapseWs (d :: rest)
    else (if isSpace c then ' ' else c) :: collapseWs (d :: rest)

/-- The script's `norm`: `re.sub(r"\s+", " ", str(s).strip().lower())`. -/
def norm (s : List Char) : List Char := collapseWs (pyLower (pyStrip s))

/-- Python `str.startswith` on character lists. -/
def startsW : List Char → List Char → Bool
  | [], _ => true
  | _ :: _, [] => false
  | c :: cs, d :: ds => c = d && startsW cs ds

/-- Python substring containment `needle in hay`. -/
def isSubstr : List Char → List Char → Bool
  | n, [] => n.isEmpty
  | n, c :: rest => startsW n (c :: rest) || isSubstr n rest

/-! String constants of the script (module-level constants and literals),
written as character lists. -/

def QUAL_DATA : List Char := "Data".toList

def QUAL_ADMIN : List Char := "Admin".toList

def QUAL_ALL_DISKS : List Char := "All Disks".toList

def QUAL_BILLING_FREED : List Char := "Billing Freed".toList

def QUAL_BILLING_CONTINUES : List Char := "Billing Continues".toList

/-- The `STOP_FREED_SUBSTRINGS` set.  The source iterates a Python `set`,
whose order is unspecified, but every element returns the same qualifier, so
the any-of outcome is order-independent; a list model is outcome-faithful. -/
def STOP_FREED_SUBSTRINGS : List (List Char) :=
  [ "deallocate".toList, "stop instance".toList, "stop instances".toList, "stopped".toList]

/-- The `STOP_CONTINUE_SUBSTRINGS` set (same remark as for the freed set). -/
def STOP_CONTINUE_SUBSTRINGS : List (List Char) :=
  [ "power off".toList, "poweroff".toList]

def sGet : List Char := "get".toList

def sRead : List Char := "read".toList

def sList : List Char := "list".toList

def sSpaceList : List Char := " list".toList

def sCreate : List Char := "create".toList

def sUpdate : List Char := "update".toList

def sDelete : List Char := "delete".toList

def kRetrieved : List Char := "retrieved".toList

def lRetrieved : List Char := "Retrieved".toList

def kCreated : List Char := "created".toList

def lCreated : List Char := "Created".toList

def kUpdated : List Char := "updated".toList

def lUpdated : List Char := "Updated".toList

def kDeleted : List Char := "deleted".toList

def lDeleted : List Char := "Deleted".toList

def kOther : List Char := "other".toList

def kStopped : List Char := "stopped".toList

def sAdmin : List Char := "admin".toList

def sLogin : List Char := "login".toList

def sAllDisks : List Char := "all disks".toList

def sTRUE : List Char := "TRUE".toList

def sIsDataAction : List Char := "IsDataAction".toList

def sIsData : List Char := "is_data".toList

def sResource : List Char := "Resource".toList

/-! Taxonomy Index Builder (`build_action_variants`). -/

/-- An action taxonomy entry: `(key, label, provider_variants)`, in the
insertion order of `actions_yaml`. -/
abbrev ActionEntry := List Char × List Char × List (List Char)

/-- One `(normalized phrase, key, label)` tuple of the Action Index. -/
abbrev Variant := List Char × List Char × List Char

/-- Stable insertion of a variant into a list sorted by descending phrase
length: `x` goes before the first strictly-or-equally shorter element, which
models the stability of Python's `list.sort(key=..., reverse=True)`. -/
def insertByLen (x : Variant) : List Variant → List Variant
  | [] => [x]
  | y :: ys => if y.1.length ≤ x.1.length then x :: y :: ys else y :: insertByLen x ys

/-- Stable sort by descending phrase length (insertion sort). -/
def sortByLenDesc : List Variant → List Variant
  | [] => []
  | x :: xs => insertByLen x (sortByLenDesc xs)

/-- The script's `build_action_variants`: collect `(norm variant, key, label)`
in taxonomy order, then sort by phrase length, longest first, stably. -/
def build_action_variants (actions : List ActionEntry) : List Variant :=
  sortByLenDesc ((actions.map (fun a => a.2.2.map (fun v => (norm v, a.1, a.2.1)))).flatten)

/-! Object Classifier (`classify_object`). -/

/-- Scan of the Object Index: first `(alias, label)` whose alias is contained
in the combined text (the `for alias, label in lookup.items()` loop). -/
def findAlias : List (List Char × List Char) → List Char → Option (List Char)
  | [], _ => none
  | (al, label) :: rest, combo =>
    if isSubstr al combo then some label else findAlias rest combo

/-- The script's `classify_object`. -/
def classify_object (resource_type op_name : List Char)
    (lookup : List (List Char × List Char)) : List Char :=
  let combo := pyLower (resource_type ++ ' ' :: op_name)
  match findAlias lookup combo with
  | some label => label
  | none =>
    let rt := pyStrip resource_type
    let rt2 := if rt.getLast? = some 's' && decide (3 < rt.length) then rt.dropLast else rt
    if rt2 = [] then sResource else rt2

/-! Action Classifier (`classify_action`). -/

/-- Scan of the Action Index: first variant whose phrase is non-empty and
contained in the normalized name (the `if phrase and phrase in low` loop).
The whole matched triple is carried so that properties of the matched
phrase can be stated; the classifier only uses its key and label. -/
def findVariant (low : List Char) : List Variant → Option Variant
  | [] => none
  | (p, k, l) :: rest =>
    if !p.isEmpty && isSubstr p low then some (p, k, l) else findVariant low rest

/-- The script's `classify_action`: indexed-variant scan, then the fixed
prefix/contains heuristic chain, then the capitalized-first-token fallback. -/
def classify_action (op_name : List Char) (action_variants : List Variant) :
    List Char × List Char :=
  let low := norm op_name
  match findVariant low action_variants with
  | some v => (v.2.1, v.2.2)
  | none =>
    if startsW sGet low || startsW sRead low || startsW sList low || isSubstr sSpaceList low then
      (kRetrieved, lRetrieved)
    else if startsW sCreate low then (kCreated, lCreated)
    else if startsW sUpdate low then (kUpdated, lUpdated)
    else if startsW sDelete low then (kDeleted, lDeleted)
    else (kOther, pyCapitalize (low.takeWhile (fun c => c ≠ ' ')))

/-! Qualifier Deriver (`derive_stop_qualifier`, `derive_qualifiers`). -/

/-- The script's `derive_stop_qualifier`. -/
def derive_stop_qualifier (op_name : List Char) : List Char :=
  let low := norm op_name
  if STOP_FREED_SUBSTRINGS.any (fun s => isSubstr s low) then QUAL_BILLING_FREED
  else if STOP_CONTINUE_SUBSTRINGS.any (fun s => isSubstr s low) then QUAL_BILLING_CONTINUES
  else []

/-- A row, as the subset of `pandas` row access the script uses: an
association list from column name to cell text. -/
abbrev Row := List (List Char × List Char)

/-- Python `row.get(k, d)`. -/
def rowGetD (row : Row) (k d : List Char) : List Char :=
  match row with
  | [] => d
  | (k', v) :: rest => if k' = k then v else rowGetD rest k d

/-- The list `q` built by `derive_qualifiers` before joining: each qualifier
is appended by an independent test, in the fixed order Data, Admin,
All Disks, billing. -/
def qualList (row : Row) (action_key op_name : List Char) : List (List Char) :=
  let low := norm op_name
  (if pyUpper (rowGetD row sIsDataAction (rowGetD row sIsData [])) = sTRUE then [QUAL_DATA] else [])
  ++ (if isSubstr sAdmin low && isSubstr sLogin low then [QUAL_ADMIN] else [])
  ++ (if isSubstr sAllDisks low then [QUAL_ALL_DISKS] else [])
  ++ (if action_key = kStopped then
        (if derive_stop_qualifier op_name ≠ [] then [derive_stop_qualifier op_name] else [])
      else [])

/-- The script's `derive_qualifiers`: the list above joined with a
semicolon, or the empty string when no qualifier applies. -/
def derive_qualifiers (row : Row) (action_key op_name : List Char) : List Char :=
  let q := qualList row action_key op_name
  if !q.isEmpty then List.intercalate [';'] q else []

/-! Label Composer (`build_common_name`, `aggregation_key`). -/

/-- The script's `build_common_name`: object label, space, action label,
then a parenthesized qualifier suffix when the qualifier string is truthy. -/
def build_common_name (obj_label action_label qualifiers : List Char) : List Char :=
  let base := obj_label ++ ' ' :: action_label
  base ++ (if !qualifiers.isEmpty then ' ' :: '(' :: (qualifiers ++ [')']) else [])

/-- Tail of a match of `\(.*\)$` after the opening parenthesis: Python's `.`
does not match a newline, and `$` matches at the end of the string or just
before a final newline, so the rest must end in a closing parenthesis
(optionally followed by one final newline) with no newline in between. -/
def afterParenOk (r : List Char) : Bool :=
  match r.reverse with
  | [] => false
  | c :: rest =>
    if c = ')' then !rest.contains '\n'
    else if c = '\n' then
      match rest with
      | [] => false
      | d :: rest2 => d = ')' && !rest2.contains '\n'
    else false

/-- Continuation of a `\s+\(.*\)$` match after its first whitespace
character: zero or more further whitespace characters, then `(`, then
`afterParenOk`. -/
def afterSpacesPar : List Char → Bool
  | [] => false
  | c :: rest => if c = '(' then afterParenOk rest else isSpace c && afterSpacesPar rest

/-- Whether `\s+\(.*\)$` matches starting at the head of the list. -/
def suffixMatch : List Char → Bool
  | [] => false
  | c :: rest => isSpace c && afterSpacesPar rest

/-- Effect of `re.sub(r"\s+\(.*\)$", "", s)`: cut from the leftmost position
where the pattern matches; a final newline survives the cut (because `$`
matched before it), everything else of the match is removed. -/
def stripParenSuffix : List Char → List Char
  | [] => []
  | c :: rest =>
    if suffixMatch (c :: rest) then
      (if (c :: rest).getLast? = some '\n' then ['\n'] else [])
    else c :: stripParenSuffix rest

/-- Effect of `base.replace(" or ", " OR ")`: left-to-right, non-overlapping,
resuming after each replacement. -/
def orReplace : List Char → List Char
  | ' ' :: 'o' :: 'r' :: ' ' :: rest => ' ' :: 'O' :: 'R' :: ' ' :: orReplace rest
  | c :: rest => c :: orReplace rest
  | [] => []

/-- Characters kept by `re.sub(r"[^A-Za-z0-9 ]", "", base)`. -/
def keyChar (c : Char) : Bool :=
  ('A' ≤ c && c ≤ 'Z') || ('a' ≤ c && c ≤ 'z') || ('0' ≤ c && c ≤ '9') || c = ' '

/-- The script's `aggregation_key`: strip a trailing parenthesized qualifier
group, normalize " or ", drop everything that is not an ASCII letter, digit
or space, uppercase, and turn spaces into underscores. -/
def aggregation_key (common_name : List Char) : List Char :=
  let base := stripParenSuffix common_name
  let base2 := orReplace base
  let base3 := base2.filter keyChar
  (pyUpper base3).map (fun c => if c = ' ' then '_' else c)

/-! Column Resolver (`map_columns`). -/

def rOperation : List Char := "operation".toList

def rResourceType : List Char := "resource_type".toList

def rService : List Char := "service".toList

def rDescription : List Char := "description".toList

def rIsData : List Char := "is_data".toList

def rOrigin : List Char := "origin".toList

/-- Candidate header names for the `operation` role. -/
def opHints : List (List Char) :=
  [ "operation name".toList, "operation".toList, "action performed".toList,
    "event".toList, "action".toList]

/-- Candidate header names for the `resource_type` role. -/
def rtHints : List (List Char) :=
  [ "resource type".toList, "resource".toList, "resource_name".toList,
    "resource category".toList]

/-- The last four rows of the `COL_HINTS` table. -/
def colHintsRest2 : List (List Char × List (List Char)) :=
  [ (rService, [ "service".toList, "provider".toList, "namespace".toList]),
    (rDescription, [ "description".toList, "details".toList, "detail".toList]),
    (rIsData, [ "isdataaction".toList, "is_data_action".toList, "is_data".toList,
                "data action".toList, "data_action".toList]),
    (rOrigin, [ "origin".toList, "source".toList])]

/-- The `COL_HINTS` rows after the operation row. -/
def colHintsRest : List (List Char × List (List Char)) :=
  (rResourceType, rtHints) :: colHintsRest2

/-- The `COL_HINTS` table in its source order. -/
def COL_HINTS : List (List Char × List (List Char)) :=
  (rOperation, opHints) :: colHintsRest

/-- The `lower_map` dict comprehension `{c.lower(): c for c in df.columns}`:
lookup of a lowercase name returns the last column bearing it. -/
def lowerLookup (cols : List (List Char)) (h : List Char) : Option (List Char) :=
  (cols.filter (fun c => pyLower c = h)).getLast?

/-- The inner hint loop: first hint present in `lower_map`, yielding its
original column name. -/
def firstHint (cols : List (List Char)) : List (List Char) → Option (List Char)
  | [] => none
  | h :: rest =>
    match lowerLookup cols h with
    | some c => some c
    | none => firstHint cols rest

/-- The mapping built by the outer loop over `COL_HINTS`, as an association
list in role order (one entry per role that has a matching column). -/
def buildMapping (cols : List (List Char)) : List (List Char × List (List Char)) → Row
  | [] => []
  | (role, hints) :: rest =>
    (match firstHint cols hints with
     | some c => [(role, c)]
     | none => []) ++ buildMapping cols rest

/-- Association-list lookup (Python dict read `mapping[k]`). -/
def mapLookup (m : Row) (k : List Char) : Option (List Char) :=
  match m with
  | [] => none
  | (k', v) :: rest => if k' = k then some v else mapLookup rest k

/-- The error raised when no operation column is identified (the spec's
`SchemaError`; the source raises `ValueError("Could not identify operation column.")`). -/
inductive SchemaError where
  | missingOperation
deriving DecidableEq, Repr

/-- The script's `map_columns` on a table's column-name list. -/
def map_columns (cols : List (List Char)) : Except SchemaError Row :=
  let m := buildMapping cols COL_HINTS
  match mapLookup m rOperation with
  | none => Except.error SchemaError.missingOperation
  | some opc =>
    Except.ok (m ++ (match mapLookup m rResourceType with
                     | some _ => []
                     | none => [(rResourceType, opc)]))

/-! Row Pipeline (the pure core of `normalize_file`: per-row classification
and the derived output columns; CSV I/O is out of scope). -/

/-- The six derived fields attached to an output row, plus the provider tag
(`df["Provider"] = provider.capitalize()` broadcasts one value to all rows). -/
structure OutRow where
  common : List Char
  action : List Char
  objectType : List Char
  qualifiers : List Char
  aggKey : List Char
  provider : List Char
deriving DecidableEq, Repr

/-- Per-row work of the `normalize_file` loop body. -/
def normalizeRow (opCol rtCol : List Char) (provider : List Char)
    (object_lookup : List (List Char × List Char)) (action_variants : List Variant)
    (row : Row) : OutRow :=
  let op_name := rowGetD row opCol []
  let resource_type := rowGetD row rtCol []
  let obj_label := classify_object resource_type op_name object_lookup
  let kl := classify_action op_name action_variants
  let qs := derive_qualifiers row kl.1 op_name
  let common := build_common_name obj_label kl.2 qs
  ⟨common, kl.2, obj_label, qs, aggregation_key common, pyCapitalize provider⟩

/-- The pure core of the script's `normalize_file`: resolve columns, then map
the loop body over the rows in order. -/
def normalize_table (cols : List (List Char)) (rows : List Row) (provider : List Char)
    (object_lookup : List (List Char × List Char)) (action_variants : List Variant) :
    Except SchemaError (List OutRow) :=
  match map_columns cols with
  | Except.error e => Except.error e
  | Except.ok mapping =>
    let opCol := (mapLookup mapping rOperation).getD []
    let rtCol := (mapLookup mapping rResourceType).getD []
    Except.ok (rows.map (normalizeRow opCol rtCol provider object_lookup action_variants))

/-! Concrete inputs used by witnesses and counterexamples. -/

def opGetBlob : List Char := "GetBlob".toList

def sDisks : List Char := "Disks".toList

def sDisk : List Char := "Disk".toList

def sRows : List Char := "Rows".toList

def sRow : List Char := "Row".toList

def sBus : List Char := "Bus".toList

def sLA : List Char := "a".toList

def sX : List Char := "x".toList

def sAws : List Char := "aws".toList

def sAwsCap : List Char := "Aws".toList

def sCommonEx : List Char := "x X".toList

def sXcap : List Char := "X".toList

def sAggEx : List Char := "X_X".toList

/-- The table of the provider counterexample: one column named operation,
one row whose operation cell is the text x. -/
def colsEx1 : List (List Char) := [rOperation]

def rowsEx1 : List Row := [[(rOperation, sX)]]

def outEx1 : List OutRow := [⟨sCommonEx, sXcap, sX, [], sAggEx, sAwsCap⟩]

/-! General lemmas about the variant and alias scans. -/

theorem findVariant_nil (vs : List Variant) : findVariant [] vs = none := by
  induction vs with
  | nil => rfl
  | cons v rest ih =>
    obtain ⟨p, k, l⟩ := v
    cases p with
    | nil => simpa [findVariant] using ih
    | cons c cs => simpa [findVariant, isSubstr] using ih

theorem findVariant_eq_none (low : List Char) (vs : List Variant)
    (h : ∀ v ∈ vs, v.1 = [] ∨ isSubstr v.1 low = false) : findVariant low vs = none := by
  induction vs with
  | nil => rfl
  | cons v rest ih =>
    obtain ⟨p, k, l⟩ := v
    have hv := h (p, k, l) (List.mem_cons_self _ _)
    have hrest := ih (fun w hw => h w (List.mem_cons_of_mem _ hw))
    rcases hv with hp | hp
    · simp only at hp
      subst hp
      simpa [findVariant] using hrest
    · simp only at hp
      simpa [findVariant, hp] using hrest

theorem findAlias_eq_none (lookup : List (List Char × List Char)) (combo : List Char)
    (h : ∀ p ∈ lookup, isSubstr p.1 combo = false) : findAlias lookup combo = none := by
  induction lookup with
  | nil => rfl
  | cons q rest ih =>
    obtain ⟨al, label⟩ := q
    have hq := h (al, label) (List.mem_cons_self _ _)
    simp only at hq
    simpa [findAlias, hq] using ih (fun w hw => h w (List.mem_cons_of_mem _ hw))

theorem findAlias_some (lookup : List (List Char × List Char)) (combo label : List Char)
    (h : findAlias lookup combo = some label) : ∃ a, (a, label) ∈ lookup := by
  induction lookup with
  | nil => simp [findAlias] at h
  | cons q rest ih =>
    obtain ⟨al, lb⟩ := q
    by_cases hm : isSubstr al combo = true
    · refine ⟨al, ?_⟩
      simp [findAlias, hm] at h
      simp [h]
    · simp [findAlias, hm] at h
      obtain ⟨a, ha⟩ := ih h
      exact ⟨a, List.mem_cons_of_mem _ ha⟩

/-- C10: an empty or whitespace-only operation name classifies as key
`other` with the empty label, and the common name it induces (with no
qualifiers) is the object label followed by a single trailing space. -/
theorem claim10_empty_op (op : List Char) (vs : List Variant) (obj : List Char)
    (h : ∀ c ∈ op, isSpace c = true) :
    classify_action op vs = (kOther, []) ∧
      build_common_name obj (classify_action op vs).2 [] = obj ++ [' '] := by
  have hdrop : op.dropWhile isSpace = [] := List.dropWhile_eq_nil_iff.mpr h
  have hstrip : pyStrip op = [] := by simp [pyStrip, hdrop]
  have hn : norm op = [] := by
    show collapseWs (pyLower (pyStrip op)) = []
    rw [hstrip]
    rfl
  have hact : classify_action op vs = (kOther, []) := by
    simp only [classify_action, hn, findVariant_nil]
    decide
  refine ⟨hact, ?_⟩
  rw [hact]
  simp [build_common_name]

/-- Witness for C10 at the one-space operation name. -/
theorem claim10_witness :
    classify_action [' '] [] = (kOther, []) ∧
      build_common_name sX (classify_action [' '] []).2 [] = sX ++ [' '] :=
  claim10_empty_op [' '] [] sX (by decide)

/-- C5: when no indexed variant phrase matches, the heuristic chain is
applied in priority order: retrieved, created, updated, deleted, then the
capitalized first token under key `other`. -/
theorem claim5_heuristic_chain (op : List Char) (vs : List Variant)
    (hnov : ∀ v ∈ vs, v.1 = [] ∨ isSubstr v.1 (norm op) = false) :
    ((startsW sGet (norm op) || startsW sRead (norm op) || startsW sList (norm op)
        || isSubstr sSpaceList (norm op)) = true →
      classify_action op vs = (kRetrieved, lRetrieved)) ∧
    ((startsW sGet (norm op) || startsW sRead (norm op) || startsW sList (norm op)
        || isSubstr sSpaceList (norm op)) = false →
      startsW sCreate (norm op) = true → classify_action op vs = (kCreated, lCreated)) ∧
    ((startsW sGet (norm op) || startsW sRead (norm op) || startsW sList (norm op)
        || isSubstr sSpaceList (norm op)) = false →
      startsW sCreate (norm op) = false →
      startsW sUpdate (norm op) = true → classify_action op vs = (kUpdated, lUpdated)) ∧
    ((startsW sGet (norm op) || startsW sRead (norm op) || startsW sList (norm op)
        || isSubstr sSpaceList (norm op)) = false →
      startsW sCreate (norm op) = false → startsW sUpdate (norm op) = false →
      startsW sDelete (norm op) = true → classify_action op vs = (kDeleted, lDeleted)) ∧
    ((startsW sGet (norm op) || startsW sRead (norm op) || startsW sList (norm op)
        || isSubstr sSpaceList (norm op)) = false →
      startsW sCreate (norm op) = false → startsW sUpdate (norm op) = false →
      startsW sDelete (norm op) = false →
      classify_action op vs = (kOther, pyCapitalize ((norm op).takeWhile (fun c => c ≠ ' ')))) := by
  have hfv : findVariant (norm op) vs = none := findVariant_eq_none _ _ hnov
  refine ⟨?_, ?_, ?_, ?_, ?_⟩ <;>
    · intros
      simp only [classify_action, hfv]
      simp [*]

/-- Witness for C5 at operation name GetBlob with an empty Action Index. -/
theorem claim5_witness : classify_action opGetBlob [] = (kRetrieved, lRetrieved) :=
  (claim5_heuristic_chain opGetBlob [] (fun v hv => absurd hv (List.not_mem_nil v))).1 (by decide)

/-- C6: with no alias match, one trailing s is stripped exactly when the
trimmed resource type ends in s and is longer than 3 characters, and the
literal label Resource is returned when the remaining string is empty. -/
theorem claim6_singularization (rt op : List Char) (lookup : List (List Char × List Char))
    (hno : ∀ p ∈ lookup, isSubstr p.1 (pyLower (rt ++ ' ' :: op)) = false) :
    ((pyStrip rt).getLast? = some 's' ∧ 3 < (pyStrip rt).length →
      classify_object rt op lookup = (pyStrip rt).dropLast) ∧
    (¬((pyStrip rt).getLast? = some 's' ∧ 3 < (pyStrip rt).length) →
      classify_object rt op lookup = (if pyStrip rt = [] then sResource else pyStrip rt)) := by
  have hfa : findAlias lookup (pyLower (rt ++ ' ' :: op)) = none := findAlias_eq_none _ _ hno
  constructor
  · rintro ⟨hs, hlen⟩
    have hne : (pyStrip rt).dropLast ≠ [] := by
      have h3 : 2 < ((pyStrip rt).dropLast).length := by
        rw [List.length_dropLast]
        omega
      intro hcon
      rw [hcon] at h3
      simp at h3
    simp [classify_object, hfa, hs, hlen, hne]
  · intro hnot
    rw [Decidable.not_and_iff_or_not] at hnot
    rcases hnot with hs | hlen
    · simp [classify_object, hfa, hs]
    · simp [classify_object, hfa, hlen]

/-- Witness for C6 at the boundary inputs Disks, Rows, Bus (empty index). -/
theorem claim6_witness :
    classify_object sDisks [] [] = sDisk ∧ classify_object sRows [] [] = sRow ∧
      classify_object sBus [] [] = sBus := by
  have h1 := (claim6_singularization sDisks [] []
    (fun p hp => absurd hp (List.not_mem_nil p))).1 (by decide)
  have h2 := (claim6_singularization sRows [] []
    (fun p hp => absurd hp (List.not_mem_nil p))).1 (by decide)
  have h3 := (claim6_singularization sBus [] []
    (fun p hp => absurd hp (List.not_mem_nil p))).2 (by decide)
  exact ⟨h1.trans (by decide), h2.trans (by decide), h3.trans (by decide)⟩

/-- C4 as stated is false: an Object Index may carry an empty canonical
label, and then classify_object returns the empty string. -/
theorem claim4_counterexample : classify_object sLA [] [(sLA, ([] : List Char))] = [] := by
  decide

/-- C4 amended: classify_object is total and returns a non-empty label
whenever every canonical label of the Object Index is non-empty, and
classify_action always returns a key/label pair (it is a total function). -/
theorem claim4_amended (rt op op2 : List Char) (lookup : List (List Char × List Char))
    (vs : List Variant) (hlab : ∀ p ∈ lookup, p.2 ≠ ([] : List Char)) :
    classify_object rt op lookup ≠ [] ∧ ∃ k l, classify_action op2 vs = (k, l) := by
  refine ⟨?_, ⟨_, _, rfl⟩⟩
  have key : ∀ x : List Char, (if x = [] then sResource else x) ≠ [] := by
    intro x
    by_cases hx : x = []
    · simp [hx]
      decide
    · simp [hx]
  cases h : findAlias lookup (pyLower (rt ++ ' ' :: op)) with
  | none =>
    simp only [classify_object, h]
    exact key _
  | some label =>
    simp only [classify_object, h]
    obtain ⟨a, ha⟩ := findAlias_some _ _ _ h
    exact hlab (a, label) ha

/-- Witness for C4 on a resource type with the empty Object Index. -/
theorem claim4_witness : classify_object sDisks [] [] ≠ [] :=
  (claim4_amended sDisks [] [] [] [] (fun p hp => absurd hp (List.not_mem_nil p))).1

def sTrueLower : List Char := "true".toList

/-- A row whose data-action flag is true. -/
def rowTrue : Row := [(sIsDataAction, sTrueLower)]

def opDeall : List Char := "Deallocate".toList

def opALAD : List Char := "Admin Login All Disks".toList

def sDataAdminDisks : List Char := "Data;Admin;All Disks".toList

/-- Elements of the qualifier list with a non-stopped action key come from
the fixed non-billing set Data, Admin, All Disks. -/
theorem mem_qualList_other (row : Row) (op x : List Char)
    (hx : x ∈ qualList row kOther op) :
    x = QUAL_DATA ∨ x = QUAL_ADMIN ∨ x = QUAL_ALL_DISKS := by
  simp only [qualList] at hx
  rw [if_neg (show ¬(kOther = kStopped) by decide)] at hx
  simp only [List.append_nil, List.mem_append] at hx
  rcases hx with (hx | hx) | hx <;> split_ifs at hx <;> simp_all

/-- C7: the billing qualifier is appended exactly for action key stopped,
with the freed phrase set taking precedence over the continues phrase set,
and no billing qualifier ever appears for another action key. -/
theorem claim7_billing (row : Row) (key op : List Char) :
    (key ≠ kStopped → qualList row key op = qualList row kOther op) ∧
    (qualList row kStopped op =
      qualList row kOther op ++
        (if STOP_FREED_SUBSTRINGS.any (fun s => isSubstr s (norm op)) then [QUAL_BILLING_FREED]
         else if STOP_CONTINUE_SUBSTRINGS.any (fun s => isSubstr s (norm op)) then
           [QUAL_BILLING_CONTINUES]
         else [])) ∧
    QUAL_BILLING_FREED ∉ qualList row kOther op ∧
    QUAL_BILLING_CONTINUES ∉ qualList row kOther op := by
  refine ⟨?_, ?_, ?_, ?_⟩
  · intro hk
    simp only [qualList]
    rw [if_neg hk, if_neg (show ¬(kOther = kStopped) by decide)]
  · by_cases h1 : STOP_FREED_SUBSTRINGS.any (fun s => isSubstr s (norm op)) = true
    · have hif : (if derive_stop_qualifier op ≠ [] then [derive_stop_qualifier op] else []) =
          [QUAL_BILLING_FREED] := by
        have hd : derive_stop_qualifier op = QUAL_BILLING_FREED := by
          simp [derive_stop_qualifier, h1]
        rw [hd]
        decide
      simp [qualList, hif, h1, show (kOther = kStopped) = False by decide]
    · by_cases h2 : STOP_CONTINUE_SUBSTRINGS.any (fun s => isSubstr s (norm op)) = true
      · have hif : (if derive_stop_qualifier op ≠ [] then [derive_stop_qualifier op] else []) =
            [QUAL_BILLING_CONTINUES] := by
          have hd : derive_stop_qualifier op = QUAL_BILLING_CONTINUES := by
            simp [derive_stop_qualifier, h1, h2]
          rw [hd]
          decide
        simp [qualList, hif, h1, h2, show (kOther = kStopped) = False by decide]
      · have hif : (if derive_stop_qualifier op ≠ [] then [derive_stop_qualifier op] else []) =
            [] := by
          have hd : derive_stop_qualifier op = [] := by
            simp [derive_stop_qualifier, h1, h2]
          rw [hd]
          decide
        simp [qualList, hif, h1, h2, show (kOther = kStopped) = False by decide]
  · intro hm
    rcases mem_qualList_other row op QUAL_BILLING_FREED hm with h | h | h <;>
      exact absurd h (by decide)
  · intro hm
    rcases mem_qualList_other row op QUAL_BILLING_CONTINUES hm with h | h | h <;>
      exact absurd h (by decide)

/-- Witness for C7: a non-stopped key appends no billing qualifier even for
a deallocate operation name. -/
theorem claim7_witness : qualList rowTrue kCreated opDeall = qualList rowTrue kOther opDeall :=
  (claim7_billing rowTrue kCreated opDeall).1 (by decide)

/-- C8: the qualifier list is always an in-order subsequence of Data,
Admin, All Disks, billing, and the concrete row with a true data-action
flag and operation name Admin Login All Disks under a non-stopped key
yields exactly the qualifier string Data;Admin;All Disks. -/
theorem claim8_ordering (row : Row) (key op : List Char) :
    List.Sublist (qualList row key op)
      [QUAL_DATA, QUAL_ADMIN, QUAL_ALL_DISKS, derive_stop_qualifier op] ∧
    (key ≠ kStopped → derive_qualifiers rowTrue key opALAD = sDataAdminDisks) := by
  constructor
  · have h1 : List.Sublist (if pyUpper (rowGetD row sIsDataAction (rowGetD row sIsData [])) = sTRUE
        then [QUAL_DATA] else []) [QUAL_DATA] := by
      split
      · exact List.Sublist.refl _
      · exact List.nil_sublist _
    have h2 : List.Sublist (if isSubstr sAdmin (norm op) && isSubstr sLogin (norm op)
        then [QUAL_ADMIN] else []) [QUAL_ADMIN] := by
      split
      · exact List.Sublist.refl _
      · exact List.nil_sublist _
    have h3 : List.Sublist (if isSubstr sAllDisks (norm op) then [QUAL_ALL_DISKS] else [])
        [QUAL_ALL_DISKS] := by
      split
      · exact List.Sublist.refl _
      · exact List.nil_sublist _
    have h4 : List.Sublist (if key = kStopped then
        (if derive_stop_qualifier op ≠ [] then [derive_stop_qualifier op] else [])
        else []) [derive_stop_qualifier op] := by
      split_ifs <;> first | exact List.Sublist.refl _ | exact List.nil_sublist _
    show List.Sublist (qualList row key op)
      ([QUAL_DATA] ++ [QUAL_ADMIN] ++ [QUAL_ALL_DISKS] ++ [derive_stop_qualifier op])
    simp only [qualList]
    exact ((h1.append h2).append h3).append h4
  · intro hk
    simp only [derive_qualifiers, qualList]
    rw [if_neg hk]
    decide

/-- Witness for C8 at the key created. -/
theorem claim8_witness : derive_qualifiers rowTrue kCreated opALAD = sDataAdminDisks :=
  (claim8_ordering rowTrue kCreated opALAD).2 (by decide)

/-- C3 as stated is false: the pipeline attaches `provider.capitalize()`,
not the verbatim provider string; with provider aws every output row
carries Aws. -/
theorem claim3_counterexample :
    (match normalize_table colsEx1 rowsEx1 sAws [] [] with
     | Except.ok l => l.map (fun r => r.provider)
     | Except.error _ => []) = [sAwsCap] ∧ sAwsCap ≠ sAws := by
  constructor
  · rfl
  · decide

/-- C3 amended: the Row Pipeline attaches the capitalized provider string
(first character uppercased, remainder lowercased) uniformly to every
output row. -/
theorem claim3_amended (cols : List (List Char)) (rows : List Row) (provider : List Char)
    (lookup : List (List Char × List Char)) (vs : List Variant) (out : List OutRow)
    (hok : normalize_table cols rows provider lookup vs = Except.ok out) :
    ∀ r ∈ out, r.provider = pyCapitalize provider := by
  cases h : map_columns cols with
  | error e => simp [normalize_table, h] at hok
  | ok mapping =>
    simp only [normalize_table, h] at hok
    injection hok with hok
    subst hok
    intro r hr
    rw [List.mem_map] at hr
    obtain ⟨row, _, rfl⟩ := hr
    rfl

/-- Witness for C3 on the one-row table with provider aws. -/
theorem claim3_witness :
    OutRow.provider ⟨sCommonEx, sXcap, sX, [], sAggEx, sAwsCap⟩ = pyCapitalize sAws :=
  claim3_amended colsEx1 rowsEx1 sAws [] [] outEx1 (by rfl) _
    (List.mem_singleton.mpr rfl)

/-! Lemmas for the Column Resolver. -/

theorem lowerLookup_eq_none_iff (cols : List (List Char)) (h : List Char) :
    lowerLookup cols h = none ↔ ∀ c ∈ cols, pyLower c ≠ h := by
  simp [lowerLookup, List.getLast?_eq_none_iff, List.filter_eq_nil_iff]

theorem firstHint_eq_none_iff (cols : List (List Char)) (hs : List (List Char)) :
    firstHint cols hs = none ↔ ∀ h ∈ hs, lowerLookup cols h = none := by
  induction hs with
  | nil => simp [firstHint]
  | cons h rest ih =>
    cases hl : lowerLookup cols h with
    | some c => simp [firstHint, hl]
    | none => simp [firstHint, hl, ih]

theorem firstHint_none_iff_cols (cols : List (List Char)) (hs : List (List Char)) :
    firstHint cols hs = none ↔ ∀ c ∈ cols, pyLower c ∉ hs := by
  rw [firstHint_eq_none_iff]
  constructor
  · intro hall c hc hmem
    exact (lowerLookup_eq_none_iff cols (pyLower c)).mp (hall (pyLower c) hmem) c hc rfl
  · intro hall h hmem
    refine (lowerLookup_eq_none_iff cols h).mpr (fun c hc heq => ?_)
    exact hall c hc (heq ▸ hmem)

theorem mapLookup_append (a b : Row) (k : List Char) :
    mapLookup (a ++ b) k =
      match mapLookup a k with
      | some v => some v
      | none => mapLookup b k := by
  induction a with
  | nil => simp [mapLookup]
  | cons p rest ih =>
    obtain ⟨k', v⟩ := p
    by_cases hk : k' = k
    · simp [mapLookup, hk]
    · simp [mapLookup, hk, ih]

theorem mapLookup_buildMapping_of_ne (cols : List (List Char))
    (tbl : List (List Char × List (List Char))) (k : List Char)
    (hk : ∀ p ∈ tbl, p.1 ≠ k) : mapLookup (buildMapping cols tbl) k = none := by
  induction tbl with
  | nil => rfl
  | cons e rest ih =>
    obtain ⟨role, hints⟩ := e
    have hr : role ≠ k := hk (role, hints) (List.mem_cons_self _ _)
    have hrest := ih (fun p hp => hk p (List.mem_cons_of_mem _ hp))
    cases hf : firstHint cols hints with
    | some c => simp [buildMapping, hf, mapLookup, hr, hrest]
    | none => simp [buildMapping, hf, hrest]

theorem mapLookup_buildMapping_head (cols : List (List Char)) (role : List Char)
    (hints : List (List Char)) (tbl : List (List Char × List (List Char))) :
    mapLookup (buildMapping cols ((role, hints) :: tbl)) role =
      match firstHint cols hints with
      | some c => some c
      | none => mapLookup (buildMapping cols tbl) role := by
  cases hf : firstHint cols hints with
  | some c => simp [buildMapping, hf, mapLookup]
  | none => simp [buildMapping, hf]

theorem mapLookup_buildMapping_skip (cols : List (List Char)) (role : List Char)
    (hints : List (List Char)) (tbl : List (List Char × List (List Char)))
    (k : List Char) (h : role ≠ k) :
    mapLookup (buildMapping cols ((role, hints) :: tbl)) k =
      mapLookup (buildMapping cols tbl) k := by
  cases hf : firstHint cols hints with
  | some c => simp [buildMapping, hf, mapLookup, h]
  | none => simp [buildMapping, hf]

/-- The resolved operation entry is exactly the first operation hint hit. -/
theorem lookup_operation (cols : List (List Char)) :
    mapLookup (buildMapping cols COL_HINTS) rOperation = firstHint cols opHints := by
  unfold COL_HINTS
  rw [mapLookup_buildMapping_head]
  cases hf : firstHint cols opHints with
  | some c => simp
  | none => simpa using mapLookup_buildMapping_of_ne cols colHintsRest rOperation (by decide)

/-- The resolved resource-type entry (before defaulting) is exactly the
first resource-type hint hit. -/
theorem lookup_resource_type (cols : List (List Char)) :
    mapLookup (buildMapping cols COL_HINTS) rResourceType = firstHint cols rtHints := by
  unfold COL_HINTS
  rw [mapLookup_buildMapping_skip cols rOperation opHints colHintsRest rResourceType (by decide)]
  unfold colHintsRest
  rw [mapLookup_buildMapping_head]
  cases hf : firstHint cols rtHints with
  | some c => simp
  | none => simpa using mapLookup_buildMapping_of_ne cols colHintsRest2 rResourceType (by decide)

/-- C9: map_columns fails exactly when no column name case-insensitively
matches an operation hint, and a successful mapping always maps
resource_type, defaulting it to the operation column when no resource-type
hint matches. -/
theorem claim9_map_columns (cols : List (List Char)) :
    ((∃ e, map_columns cols = Except.error e) ↔ ∀ c ∈ cols, pyLower c ∉ opHints) ∧
    (∀ m, map_columns cols = Except.ok m →
      (∃ v, mapLookup m rResourceType = some v) ∧
      ((∀ c ∈ cols, pyLower c ∉ rtHints) →
        mapLookup m rResourceType = mapLookup m rOperation)) := by
  have hmop := lookup_operation cols
  constructor
  · cases hop : firstHint cols opHints with
    | none =>
      rw [hop] at hmop
      constructor
      · intro _
        exact (firstHint_none_iff_cols cols opHints).mp hop
      · intro _
        exact ⟨SchemaError.missingOperation, by simp [map_columns, hmop]⟩
    | some opc =>
      rw [hop] at hmop
      constructor
      · rintro ⟨e, he⟩
        simp [map_columns, hmop] at he
      · intro hall
        have hnone := (firstHint_none_iff_cols cols opHints).mpr hall
        rw [hop] at hnone
        simp at hnone
  · intro m hok
    cases hop : firstHint cols opHints with
    | none =>
      rw [hop] at hmop
      simp [map_columns, hmop] at hok
    | some opc =>
      rw [hop] at hmop
      have hmrt := lookup_resource_type cols
      simp only [map_columns, hmop] at hok
      injection hok with hok
      subst hok
      cases hrt : firstHint cols rtHints with
      | some c =>
        rw [hrt] at hmrt
        constructor
        · refine ⟨c, ?_⟩
          rw [mapLookup_append]
          simp [hmrt]
        · intro hall
          have hnone := (firstHint_none_iff_cols cols rtHints).mpr hall
          rw [hrt] at hnone
          simp at hnone
      | none =>
        rw [hrt] at hmrt
        constructor
        · refine ⟨opc, ?_⟩
          rw [mapLookup_append]
          simp [hmrt, mapLookup]
        · intro _
          rw [mapLookup_append, mapLookup_append]
          simp [hmrt, hmop, mapLookup]

def colsIdTs : List (List Char) := [ "id".toList, "timestamp".toList]

def colOpName : List Char := "Operation Name".toList

/-- The mapping map_columns produces for a table whose single column is
Operation Name. -/
def mEx : Row := [(rOperation, colOpName), (rResourceType, colOpName)]

/-- Witness for C9: a table whose only columns are id and timestamp fails,
and a table with an Operation Name column and no resource column still maps
resource_type. -/
theorem claim9_witness :
    map_columns colsIdTs = Except.error SchemaError.missingOperation ∧
    (mapLookup mEx rResourceType).isSome = true := by
  constructor
  · obtain ⟨e, he⟩ := (claim9_map_columns colsIdTs).1.mpr (by decide)
    cases e
    exact he
  · obtain ⟨v, hv⟩ := ((claim9_map_columns [colOpName]).2 mEx (by rfl)).1
    rw [hv]
    rfl

/-! Lemmas for the Action Index ordering and the longest-match tie-break. -/

theorem mem_insertByLen (x y : Variant) (l : List Variant) :
    y ∈ insertByLen x l ↔ y = x ∨ y ∈ l := by
  induction l with
  | nil => simp [insertByLen]
  | cons z zs ih =>
    by_cases hle : z.1.length ≤ x.1.length
    · simp [insertByLen, hle]
    · simp [insertByLen, hle, ih]
      tauto

theorem pairwise_insertByLen (x : Variant) (l : List Variant)
    (h : List.Pairwise (fun a b : Variant => b.1.length ≤ a.1.length) l) :
    List.Pairwise (fun a b : Variant => b.1.length ≤ a.1.length) (insertByLen x l) := by
  induction l with
  | nil => simp [insertByLen]
  | cons z zs ih =>
    rw [List.pairwise_cons] at h
    obtain ⟨hz, hzs⟩ := h
    by_cases hle : z.1.length ≤ x.1.length
    · simp only [insertByLen, hle, if_pos]
      rw [List.pairwise_cons]
      refine ⟨?_, List.pairwise_cons.mpr ⟨hz, hzs⟩⟩
      intro w hw
      rcases List.mem_cons.mp hw with hw | hw
      · exact hw ▸ hle
      · exact (hz w hw).trans hle
    · simp only [insertByLen, hle, if_neg, ite_false]
      rw [List.pairwise_cons]
      refine ⟨?_, ih hzs⟩
      intro w hw
      rcases (mem_insertByLen x w zs).mp hw with hw | hw
      · subst hw
        omega
      · exact hz w hw

theorem pairwise_sortByLenDesc (l : List Variant) :
    List.Pairwise (fun a b : Variant => b.1.length ≤ a.1.length) (sortByLenDesc l) := by
  induction l with
  | nil => simp [sortByLenDesc]
  | cons x xs ih => exact pairwise_insertByLen x (sortByLenDesc xs) ih

/-- The Action Index is sorted by descending phrase length. -/
theorem sorted_build_action_variants (actions : List ActionEntry) :
    List.Pairwise (fun a b : Variant => b.1.length ≤ a.1.length)
      (build_action_variants actions) :=
  pairwise_sortByLenDesc _

theorem findVariant_some_spec (low : List Char) (vs : List Variant) (v : Variant)
    (h : findVariant low vs = some v) :
    v ∈ vs ∧ (!v.1.isEmpty && isSubstr v.1 low) = true := by
  induction vs with
  | nil => simp [findVariant] at h
  | cons w rest ih =>
    obtain ⟨p, k, l⟩ := w
    by_cases hc : (!p.isEmpty && isSubstr p low) = true
    · simp only [findVariant, hc, if_pos] at h
      injection h with h
      subst h
      exact ⟨List.mem_cons_self _ _, hc⟩
    · simp only [findVariant, hc, if_neg, ite_false] at h
      obtain ⟨hm, hcond⟩ := ih h
      exact ⟨List.mem_cons_of_mem _ hm, hcond⟩

theorem findVariant_isSome (low : List Char) (vs : List Variant) (q : Variant)
    (hq : q ∈ vs) (hne : q.1 ≠ []) (hsub : isSubstr q.1 low = true) :
    ∃ v, findVariant low vs = some v := by
  induction vs with
  | nil => exact absurd hq (List.not_mem_nil q)
  | cons w rest ih =>
    obtain ⟨p, k, l⟩ := w
    by_cases hc : (!p.isEmpty && isSubstr p low) = true
    · exact ⟨(p, k, l), by simp [findVariant, hc]⟩
    · rcases List.mem_cons.mp hq with hq | hq
      · exfalso
        apply hc
        rw [Bool.and_eq_true]
        have hp1 : p ≠ [] := by
          rw [hq] at hne
          exact hne
        have hps : isSubstr p low = true := by
          rw [hq] at hsub
          exact hsub
        refine ⟨?_, hps⟩
        cases p with
        | nil => exact absurd rfl hp1
        | cons c cs => rfl
      · obtain ⟨v, hv⟩ := ih hq
        exact ⟨v, by simp [findVariant, hc, hv]⟩

theorem findVariant_max (low : List Char) (vs : List Variant)
    (hs : List.Pairwise (fun a b : Variant => b.1.length ≤ a.1.length) vs)
    (v : Variant) (h : findVariant low vs = some v) :
    ∀ q ∈ vs, q.1 ≠ [] → isSubstr q.1 low = true → q.1.length ≤ v.1.length := by
  induction vs with
  | nil => simp [findVariant] at h
  | cons w rest ih =>
    rw [List.pairwise_cons] at hs
    obtain ⟨hw, hrest⟩ := hs
    obtain ⟨p, k, l⟩ := w
    by_cases hc : (!p.isEmpty && isSubstr p low) = true
    · simp only [findVariant, hc, if_pos] at h
      injection h with h
      subst h
      intro q hq hne hsub
      rcases List.mem_cons.mp hq with hq | hq
      · exact hq ▸ Nat.le_refl _
      · exact hw q hq
    · simp only [findVariant, hc, if_neg, ite_false] at h
      intro q hq hne hsub
      rcases List.mem_cons.mp hq with hq | hq
      · exfalso
        apply hc
        rw [Bool.and_eq_true]
        have hp1 : p ≠ [] := by
          rw [hq] at hne
          exact hne
        have hps : isSubstr p low = true := by
          rw [hq] at hsub
          exact hsub
        refine ⟨?_, hps⟩
        cases p with
        | nil => exact absurd rfl hp1
        | cons c cs => rfl
      · exact ih hrest h q hq hne hsub

/-! Concrete Action Index of the longest-match claim. -/

def kStop : List Char := "stop".toList

def lStop : List Char := "Stop".toList

def lStopped : List Char := "Stopped".toList

def vStopInstance : List Char := "stop instance".toList

def opStopInstance : List Char := "StopInstance".toList

def opStopSpace : List Char := "Stop Instance".toList

def opStopBoth : List Char := "Some Stop Instance Op".toList

/-- Action taxonomy with variants stop (key stop) and stop instance
(key stopped). -/
def actionsEx : List ActionEntry :=
  [(kStop, lStop, [kStop]), (kStopped, lStopped, [vStopInstance])]

/-- C1 as stated is false on the code: norm does not split camel case, so
the normalized StopInstance is stopinstance, which does not contain the
two-word phrase stop instance; only the variant stop matches and the key
stop is returned, not stopped. -/
theorem claim1_counterexample :
    classify_action opStopInstance (build_action_variants actionsEx) = (kStop, lStop) ∧
    kStop ≠ kStopped := by
  decide

/-- C1 amended: with a whitespace-separated operation name Stop Instance
the longer variant wins and key stopped is returned; in general, whenever
the variant scan of the Action Index built by build_action_variants finds a
match, the classifier returns the key and label of a matching variant whose
phrase length is maximal among all matching variants (longest match wins),
and the scan finds a match whenever any non-empty variant phrase occurs in
the normalized name. -/
theorem claim1_amended :
    classify_action opStopSpace (build_action_variants actionsEx) = (kStopped, lStopped) ∧
    (∀ (actions : List ActionEntry) (op : List Char) (v : Variant),
      findVariant (norm op) (build_action_variants actions) = some v →
      classify_action op (build_action_variants actions) = (v.2.1, v.2.2) ∧
      v ∈ build_action_variants actions ∧ v.1 ≠ [] ∧ isSubstr v.1 (norm op) = true ∧
      ∀ q ∈ build_action_variants actions, q.1 ≠ [] → isSubstr q.1 (norm op) = true →
        q.1.length ≤ v.1.length) ∧
    (∀ (actions : List ActionEntry) (op : List Char) (q : Variant),
      q ∈ build_action_variants actions → q.1 ≠ [] → isSubstr q.1 (norm op) = true →
      ∃ v, findVariant (norm op) (build_action_variants actions) = some v) := by
  refine ⟨by decide, ?_, ?_⟩
  · intro actions op v h
    obtain ⟨hmem, hcond⟩ := findVariant_some_spec _ _ _ h
    rw [Bool.and_eq_true] at hcond
    obtain ⟨h1, h2⟩ := hcond
    refine ⟨by simp only [classify_action, h], hmem, ?_, h2,
      findVariant_max _ _ (sorted_build_action_variants actions) v h⟩
    intro hnil
    rw [hnil] at h1
    simp at h1
  · intro actions op q hq hne hsub
    exact findVariant_isSome _ _ q hq hne hsub

/-- Witness for C1 on an operation name containing both phrases. -/
theorem claim1_witness :
    classify_action opStopBoth (build_action_variants actionsEx) = (kStopped, lStopped) :=
  (claim1_amended.2.1 actionsEx opStopBoth (vStopInstance, kStopped, lStopped) (by decide)).1

/-! Lemmas for the aggregation-key qualifier strip. -/

/-- Whether a list is non-empty and its last character is not whitespace. -/
def endsNonSpace (l : List Char) : Bool :=
  match l.getLast? with
  | some c => !isSpace c
  | none => false

def sVM : List Char := "Virtual Machine".toList

def sVMKey : List Char := "VIRTUAL_MACHINE_STOPPED".toList

/-- A qualifier text containing a newline, on which the trailing-group
regex of aggregation_key cannot match. -/
def qsNl : List Char := "a\nb".toList

/-- Unfolding equation for afterSpacesPar on a cons cell. -/
theorem afterSpacesPar_cons (c : Char) (rest : List Char) :
    afterSpacesPar (c :: rest) =
      if c = '(' then afterParenOk rest else isSpace c && afterSpacesPar rest := rfl

/-- Unfolding equation for suffixMatch on a cons cell. -/
theorem suffixMatch_cons (c : Char) (rest : List Char) :
    suffixMatch (c :: rest) = (isSpace c && afterSpacesPar rest) := rfl

/-- Unfolding equation for stripParenSuffix on a cons cell. -/
theorem stripParenSuffix_cons (c : Char) (rest : List Char) :
    stripParenSuffix (c :: rest) =
      if suffixMatch (c :: rest) = true then
        (if (c :: rest).getLast? = some '\n' then ['\n'] else [])
      else c :: stripParenSuffix rest := rfl

theorem paren_mem_of_afterSpacesPar (l : List Char) (h : afterSpacesPar l = true) :
    '(' ∈ l := by
  induction l with
  | nil => simp [afterSpacesPar] at h
  | cons c rest ih =>
    by_cases hc : c = '('
    · exact hc ▸ List.mem_cons_self _ _
    · simp only [afterSpacesPar, hc, if_neg, ite_false, Bool.and_eq_true] at h
      exact List.mem_cons_of_mem _ (ih h.2)

theorem paren_mem_of_suffixMatch (l : List Char) (h : suffixMatch l = true) : '(' ∈ l := by
  cases l with
  | nil => simp [suffixMatch] at h
  | cons c rest =>
    simp only [suffixMatch, Bool.and_eq_true] at h
    exact List.mem_cons_of_mem _ (paren_mem_of_afterSpacesPar rest h.2)

/-- Without an opening parenthesis the pattern cannot match anywhere, so the
strip is the identity. -/
theorem stripParenSuffix_of_no_paren (l : List Char) (h : '(' ∉ l) :
    stripParenSuffix l = l := by
  induction l with
  | nil => rfl
  | cons c rest ih =>
    have hm : suffixMatch (c :: rest) = false := by
      cases hs : suffixMatch (c :: rest)
      · rfl
      · exact absurd (paren_mem_of_suffixMatch _ hs) h
    simp [stripParenSuffix, hm, ih (fun hmem => h (List.mem_cons_of_mem _ hmem))]

/-- Inside a block that ends in a non-space character and has no opening
parenthesis, the whitespace-then-parenthesis continuation cannot reach the
appended parenthesis group. -/
theorem afterSpacesPar_append_false (B r : List Char) (hB : endsNonSpace B = true)
    (hp : '(' ∉ B) : afterSpacesPar (B ++ ' ' :: '(' :: r) = false := by
  induction B with
  | nil => simp [endsNonSpace] at hB
  | cons b B' ih =>
    have hbp : b ≠ '(' := fun hc => hp (hc ▸ List.mem_cons_self _ _)
    cases B' with
    | nil =>
      have hb : isSpace b = false := by
        simpa [endsNonSpace] using hB
      simp only [List.cons_append, List.nil_append]
      rw [afterSpacesPar_cons, if_neg hbp, hb, Bool.false_and]
    | cons b' B'' =>
      have hB' : endsNonSpace (b' :: B'') = true := by
        simpa [endsNonSpace, List.getLast?_cons_cons] using hB
      have hp' : '(' ∉ (b' :: B'') := fun hm => hp (List.mem_cons_of_mem _ hm)
      have ih' := ih hB' hp'
      simp only [List.cons_append] at ih' ⊢
      rw [afterSpacesPar_cons, if_neg hbp, ih', Bool.and_false]

/-- The pattern does match at the whitespace directly before the appended
parenthesis group when the group text has no newline. -/
theorem suffixMatch_junction (qs : List Char) (hq : '\n' ∉ qs) :
    suffixMatch (' ' :: '(' :: (qs ++ [')'])) = true := by
  have hrev : (qs ++ [')']).reverse = ')' :: qs.reverse := by simp
  have hcon : qs.reverse.contains '\n' = false := by
    simpa using hq
  have h3 : afterParenOk (qs ++ [')']) = true := by
    simp only [afterParenOk, hrev, hcon, if_true]
    decide
  have h2 : afterSpacesPar ('(' :: (qs ++ [')'])) = true := by
    rw [afterSpacesPar_cons, if_pos rfl]
    exact h3
  rw [suffixMatch_cons, h2, Bool.and_true]
  decide

theorem getLast?_junction (qs : List Char) :
    (' ' :: '(' :: (qs ++ [')'])).getLast? = some ')' := by
  have h : (' ' :: '(' :: (qs ++ [')'])) = (' ' :: '(' :: qs) ++ [')'] := by simp
  rw [h, List.getLast?_concat]

/-- Cutting the appended parenthesis group: the strip removes exactly the
appended whitespace-parenthesis suffix and keeps the base. -/
theorem stripParenSuffix_append (B qs : List Char) (hB : endsNonSpace B = true)
    (hp : '(' ∉ B) (hq : '\n' ∉ qs) :
    stripParenSuffix (B ++ ' ' :: '(' :: (qs ++ [')'])) = B := by
  have hne : ¬((' ' :: '(' :: (qs ++ [')'])).getLast? = some '\n') := by
    rw [getLast?_junction]
    decide
  have hm2 := suffixMatch_junction qs hq
  induction B with
  | nil => simp [endsNonSpace] at hB
  | cons b B' ih =>
    cases B' with
    | nil =>
      have hb : isSpace b = false := by
        simpa [endsNonSpace] using hB
      have hcond1 : ¬(suffixMatch (b :: ' ' :: '(' :: (qs ++ [')'])) = true) := by
        rw [suffixMatch_cons, hb, Bool.false_and]
        decide
      simp only [List.cons_append, List.nil_append]
      rw [stripParenSuffix_cons, if_neg hcond1, stripParenSuffix_cons, if_pos hm2,
        if_neg hne]
    | cons b' B'' =>
      have hB' : endsNonSpace (b' :: B'') = true := by
        simpa [endsNonSpace, List.getLast?_cons_cons] using hB
      have hp' : '(' ∉ (b' :: B'') := fun hm => hp (List.mem_cons_of_mem _ hm)
      have hasp := afterSpacesPar_append_false (b' :: B'') (qs ++ [')']) hB' hp'
      simp only [List.cons_append] at hasp
      have hcond1 : ¬(suffixMatch (b :: (b' :: (B'' ++ ' ' :: '(' :: (qs ++ [')'])))) = true) := by
        rw [suffixMatch_cons, hasp, Bool.and_false]
        decide
      have ih' := ih hB' hp'
      simp only [List.cons_append] at ih' ⊢
      rw [stripParenSuffix_cons, if_neg hcond1, ih']

/-- C2 as stated is false: a qualifier list whose text contains a newline
defeats the trailing-group regex (Python's dot does not match a newline),
so the qualifiers leak into the aggregation key. -/
theorem claim2_counterexample :
    ¬(aggregation_key (build_common_name sVM lStopped qsNl) =
      aggregation_key (build_common_name sVM lStopped [])) := by
  decide

/-- C2 amended: the aggregation key ignores the qualifier string whenever
the object and action labels contain no opening parenthesis, the action
label is non-empty and does not end in whitespace, and the qualifier string
contains no newline; in particular the Virtual Machine / Stopped /
Billing Freed example equals the no-qualifier key, both being
VIRTUAL_MACHINE_STOPPED. -/
theorem claim2_amended (obj act qs : List Char) (hobj : '(' ∉ obj) (hact : '(' ∉ act)
    (hend : endsNonSpace act = true) (hq : '\n' ∉ qs) :
    aggregation_key (build_common_name obj act qs) =
      aggregation_key (build_common_name obj act []) ∧
    aggregation_key (build_common_name sVM lStopped QUAL_BILLING_FREED) = sVMKey ∧
    aggregation_key (build_common_name sVM lStopped []) = sVMKey := by
  refine ⟨?_, by decide, by decide⟩
  by_cases hqe : qs = []
  · rw [hqe]
  · have hactne : act ≠ [] := by
      intro h0
      rw [h0] at hend
      simp [endsNonSpace] at hend
    have hB : endsNonSpace (obj ++ ' ' :: act) = true := by
      cases act with
      | nil => exact absurd rfl hactne
      | cons a as =>
        have hg : (obj ++ ' ' :: a :: as).getLast? = (a :: as).getLast? := by
          rw [List.getLast?_append_cons, List.getLast?_cons_cons]
        simp only [endsNonSpace] at hend ⊢
        rw [hg]
        exact hend
    have hpB : '(' ∉ (obj ++ ' ' :: act) := by
      intro hm
      rcases List.mem_append.mp hm with hm | hm
      · exact hobj hm
      · rcases List.mem_cons.mp hm with hm | hm
        · exact absurd hm (by decide)
        · exact hact hm
    have hqis : qs.isEmpty = false := by
      cases qs with
      | nil => exact absurd rfl hqe
      | cons _ _ => rfl
    have hshape : build_common_name obj act qs =
        (obj ++ ' ' :: act) ++ ' ' :: '(' :: (qs ++ [')']) := by
      simp [build_common_name, hqis]
    have hstrip1 : stripParenSuffix (build_common_name obj act qs) = obj ++ ' ' :: act := by
      rw [hshape, stripParenSuffix_append _ _ hB hpB hq]
    have hstrip2 : stripParenSuffix (build_common_name obj act []) = obj ++ ' ' :: act := by
      have heq : build_common_name obj act [] = obj ++ ' ' :: act := by
        simp [build_common_name]
      rw [heq, stripParenSuffix_of_no_paren _ hpB]
    simp [aggregation_key, hstrip1, hstrip2]

/-- Witness for C2 at the Virtual Machine / Stopped / Billing Freed row. -/
theorem claim2_witness :
    aggregation_key (build_common_name sVM lStopped QUAL_BILLING_FREED) =
      aggregation_key (build_common_name sVM lStopped []) :=
  (claim2_amended sVM lStopped QUAL_BILLING_FREED (by decide) (by decide) (by decide)
    (by decide)).1
